import Mathlib

/-!
Shallow embedding of `aes_dump.py`: a memory-dump key-carving tool that
discovers candidate data regions in a snapshot (from minidump metadata, or
heuristically from null-block framing) and scans them for 32-byte
high-entropy windows that repeat periodically (AES-256 key candidates).

Bytes are modelled as natural numbers; the memory-mapped file is a total
function from offsets to bytes together with an explicit size.  Loops are
fuel-indexed with fuel chosen large enough for the source's loops.
-/

/- Configuration constants (module-level constants in the source). -/

def MIN_NULL_START_REGION_SIZE : Nat := 10000

def MIN_NULL_END_REGION_SIZE : Nat := 10000

def MAX_REGION_SIZE : Nat := 2 * 1024 * 1024

def AVERAGE_REGION_SIZE : Nat := 100000

def MIN_REGION_SIZE : Nat := 25000

def AES_KEY_SIZE : Nat := 32

def LOOKAHEAD : Nat := 300

def REQUIRED_REPEATS : Nat := 10

def MAX_INITIAL_SCAN_IN_REGION : Nat := 500

def PRE_NULL_CHECK : Nat := 64

/-- `AES_ENTROPY_THRESHOLD = 4.7` bits. -/
noncomputable def AES_ENTROPY_THRESHOLD : ℝ := 47 / 10

/-- A read-only random-access view of the dump (the `mmap` in the source):
`data i` is the byte at offset `i`, `size` the file length. -/
structure ByteSource where
  data : Nat → Nat
  size : Nat

/-- The slice `mm[a:b]`: the bytes at offsets `a ≤ k < b`. -/
def sliceBS (mm : ByteSource) (a b : Nat) : List Nat :=
  (List.range (b - a)).map (fun k => mm.data (a + k))

/-- Whether the `len` bytes starting at offset `p` are all null. -/
def allZero (mm : ByteSource) : Nat → Nat → Bool
  | _, 0 => true
  | p, len + 1 => mm.data p == 0 && allZero mm (p + 1) len

/-- `mm[p:p+len].count(0)`: how many of the `len` bytes from offset `p` are null. -/
def countZero (mm : ByteSource) : Nat → Nat → Nat
  | _, 0 => 0
  | p, len + 1 => (if mm.data p = 0 then 1 else 0) + countZero mm (p + 1) len

/-- Search step for `mm.find(b"\x00" * len, pos)`: try offsets `p, p+1, ...`
(consuming fuel) for a fully in-bounds run of `len` null bytes. -/
def findNullRunAux (mm : ByteSource) (len : Nat) : Nat → Nat → Option Nat
  | 0, _ => none
  | fuel + 1, p =>
    if p + len ≤ mm.size then
      if allZero mm p len then some p else findNullRunAux mm len fuel (p + 1)
    else none

/-- `mm.find(b"\x00" * len, pos)`: offset of the first in-bounds run of `len`
null bytes at or after `pos` (`none` for Python's `-1`). -/
def findNullRun (mm : ByteSource) (len pos : Nat) : Option Nat :=
  findNullRunAux mm len (mm.size + 1 - pos) pos

/-- Search step for `mm.find(bytes([b]), pos)`. -/
def findByteAux (mm : ByteSource) (b : Nat) : Nat → Nat → Option Nat
  | 0, _ => none
  | fuel + 1, p =>
    if p < mm.size then
      if mm.data p == b then some p else findByteAux mm b fuel (p + 1)
    else none

/-- `mm.find(bytes([b]), pos)`: offset of the first byte equal to `b` at or
after `pos` (`none` for Python's `-1`). -/
def findByte (mm : ByteSource) (b pos : Nat) : Option Nat :=
  findByteAux mm b (mm.size - pos) pos

/-- A discovered region; the source carries `(region_start, region_end, region_size)`
tuples with `size = stop - start`. -/
structure Region where
  start : Nat
  stop : Nat
  size : Nat
deriving DecidableEq, Repr

/-- `ScanMode` from the source. -/
inductive ScanMode where
  | Forward
  | Backward
deriving DecidableEq, Repr

/-- One iteration of the forward-mode loop of `find_regions_loose`
(`while pos < size`): find a null block of `MIN_NULL_START_REGION_SIZE` bytes, jump
past it to the next byte equal to `0x01`, find the next
`MIN_NULL_END_REGION_SIZE`-byte null block, emit the span when
`MIN_REGION_SIZE < size ≤ MAX_REGION_SIZE`, then continue past it (`recurse`). -/
def forwardScanBody (mm : ByteSource) (pos : Nat) (recurse : Nat → List Region) :
    List Region :=
  if pos < mm.size then
    (findNullRun mm MIN_NULL_START_REGION_SIZE pos).elim []
      (fun startNull =>
        (findByte mm 1 (startNull + MIN_NULL_START_REGION_SIZE)).elim []
          (fun nextNonNull =>
            if mm.size ≤ nextNonNull then []
            else
              (findNullRun mm MIN_NULL_END_REGION_SIZE nextNonNull).elim []
                (fun endNull =>
                  let regionSize := endNull - nextNonNull
                  let rest := recurse (endNull + MIN_NULL_START_REGION_SIZE)
                  if MIN_REGION_SIZE < regionSize ∧ regionSize ≤ MAX_REGION_SIZE then
                    ⟨nextNonNull, endNull, regionSize⟩ :: rest
                  else rest)))
  else []

/-- The forward-mode loop of `find_regions_loose`, fuel-indexed. -/
def forwardScanAux (mm : ByteSource) : Nat → Nat → List Region
  | 0, _ => []
  | fuel + 1, pos => forwardScanBody mm pos (forwardScanAux mm fuel)

/-- One iteration of the backward-mode loop of `find_regions_loose`: find the next
`MIN_NULL_END_REGION_SIZE`-byte null block, take a fixed look-back window
`max (0, end - AVERAGE_REGION_SIZE)` as the start, skip the candidate when the
last `PRE_NULL_CHECK` in-window bytes before the end are all null, and emit it
when `MIN_REGION_SIZE ≤ size`; then continue past the null block (`recurse`). -/
def backwardScanBody (mm : ByteSource) (pos : Nat) (recurse : Nat → List Region) :
    List Region :=
  if pos < mm.size then
    (findNullRun mm MIN_NULL_END_REGION_SIZE pos).elim []
      (fun endNull =>
        let regionStart := endNull - AVERAGE_REGION_SIZE
        let regionSize := endNull - regionStart
        let checkStart := max regionStart (endNull - PRE_NULL_CHECK)
        let rest := recurse (endNull + MIN_NULL_END_REGION_SIZE)
        if countZero mm checkStart (endNull - checkStart) = endNull - checkStart then rest
        else if MIN_REGION_SIZE ≤ regionSize then ⟨regionStart, endNull, regionSize⟩ :: rest
        else rest)
  else []

/-- The backward-mode loop of `find_regions_loose`, fuel-indexed. -/
def backwardScanAux (mm : ByteSource) : Nat → Nat → List Region
  | 0, _ => []
  | fuel + 1, pos => backwardScanBody mm pos (backwardScanAux mm fuel)

/-- `find_regions_loose`: heuristic region discovery.  Fuel `mm.size + 1` dominates
the iteration count: every iteration advances `pos` by at least
`MIN_NULL_END_REGION_SIZE ≥ 1` (resp. `MIN_NULL_START_REGION_SIZE`). -/
def find_regions_loose (mm : ByteSource) (mode : ScanMode) : List Region :=
  match mode with
  | ScanMode.Forward => forwardScanAux mm (mm.size + 1) 0
  | ScanMode.Backward => backwardScanAux mm (mm.size + 1) 0

/-- A declared memory segment from the minidump metadata
(`seg.start_file_address`, `seg.size`). -/
structure MemorySegment where
  start_file_address : Nat
  size : Nat
deriving DecidableEq, Repr

/-- `find_regions_from_minidump`: keep each declared segment as a region iff
`MIN_REGION_SIZE < size ≤ MAX_REGION_SIZE`; `none` models an absent/falsy
`memory_segments_64`. -/
def find_regions_from_minidump (segs64 : Option (List MemorySegment)) : List Region :=
  match segs64 with
  | none => []
  | some segs =>
    segs.foldr
      (fun seg acc =>
        if MIN_REGION_SIZE < seg.size ∧ seg.size ≤ MAX_REGION_SIZE then
          ⟨seg.start_file_address, seg.start_file_address + seg.size, seg.size⟩ :: acc
        else acc)
      []

/-- `shannon_entropy`: Shannon entropy in bits over a 256-bin byte histogram
(`freq[v] = data.count v`); bins with zero frequency are skipped; empty input
returns `0.0`. -/
noncomputable def shannon_entropy (data : List Nat) : ℝ :=
  if data = [] then 0
  else
    -∑ v ∈ Finset.range 256,
      (if data.count v = 0 then 0
       else (data.count v / data.length : ℝ) * Real.logb 2 (data.count v / data.length))

/-- Integer numerator `∏ f_v ^ (10 · f_v)` used by `entropyGate`. -/
def entropyNumerator (data : List Nat) : Nat :=
  ∏ v ∈ Finset.range 256, data.count v ^ (10 * data.count v)

/-- Exact integer form of the source's `shannon_entropy(candidate) >= AES_ENTROPY_THRESHOLD`
test (threshold `4.7 = 47/10` bits): for a nonempty byte string of length `n`,
`H ≥ 47/10 ↔ 2^(47·n) · ∏ f^(10·f) ≤ n^(10·n)`; `entropyGate_correct` below proves
this equivalence against the real-valued `shannon_entropy`. -/
def entropyGate (data : List Nat) : Bool :=
  decide (2 ^ (47 * data.length) * entropyNumerator data ≤ data.length ^ (10 * data.length))

/-- The inner periodicity search
(`for j in range(scan_pos + 1, min(region_end - AES_KEY_SIZE, scan_pos + LOOKAHEAD))`):
the first `j` in that half-open range whose 32-byte window equals `candidate`. -/
def findNextOccurrence (mm : ByteSource) (regionEnd : Nat) (candidate : List Nat)
    (scanPos : Nat) : Option Nat :=
  (List.range' (scanPos + 1)
      (min (regionEnd - AES_KEY_SIZE) (scanPos + LOOKAHEAD) - (scanPos + 1))).find?
    (fun j => sliceBS mm j (j + AES_KEY_SIZE) == candidate)

/-- One iteration of the verification loop (`while repeat_count < REQUIRED_REPEATS`):
search for the next occurrence of `candidate`, advance the origin and bump the
counter (`recurse`) when found, otherwise stop with the current count. -/
def repeatBody (mm : ByteSource) (regionEnd : Nat) (candidate : List Nat)
    (count scanPos : Nat) (recurse : Nat → Nat → Nat) : Nat :=
  if count < REQUIRED_REPEATS then
    (findNextOccurrence mm regionEnd candidate scanPos).elim count
      (fun j => recurse (count + 1) j)
  else count

/-- The verification loop, fuel-indexed; returns the final `repeat_count`. -/
def repeatLoop (mm : ByteSource) (regionEnd : Nat) (candidate : List Nat) :
    Nat → Nat → Nat → Nat
  | 0, count, _ => count
  | fuel + 1, count, scanPos =>
    repeatBody mm regionEnd candidate count scanPos (repeatLoop mm regionEnd candidate fuel)

/-- The final `repeat_count` reached for a candidate first seen at offset `i`
(`repeat_count = 1`, `scan_pos = i` initially; fuel `REQUIRED_REPEATS` dominates
the loop count since the counter grows by one per iteration). -/
def repeatCount (mm : ByteSource) (regionEnd i : Nat) (candidate : List Nat) : Nat :=
  repeatLoop mm regionEnd candidate REQUIRED_REPEATS 1 i

/-- `keys_found.add(candidate)`: a set insertion deduplicating by exact byte equality. -/
def setAdd (s : List (List Nat)) (x : List Nat) : List (List Nat) :=
  if x ∈ s then s else s ++ [x]

/-- One iteration of the per-offset loop of `find_aes_keys_in_regions`
(`while i <= initial_end - AES_KEY_SIZE`).  The reject chain mirrors the source:
null first byte; more than two null bytes; the two preceding in-region bytes not
both null; entropy below threshold; too few periodic repeats. -/
def scanBody (mm : ByteSource) (regionStart regionEnd initialEnd : Nat) (i : Nat)
    (acc : List (List Nat)) (recurse : Nat → List (List Nat) → List (List Nat)) :
    List (List Nat) :=
  if i + AES_KEY_SIZE ≤ initialEnd then
    let candidate := sliceBS mm i (i + AES_KEY_SIZE)
    if candidate.headI = 0 then recurse (i + 1) acc
    else if 2 < candidate.count 0 then recurse (i + 1) acc
    else if i < regionStart + 2 ∨ sliceBS mm (i - 2) i ≠ [0, 0] then recurse (i + 1) acc
    else if entropyGate candidate then
      if REQUIRED_REPEATS ≤ repeatCount mm regionEnd i candidate then
        recurse (i + 1) (setAdd acc candidate)
      else recurse (i + 1) acc
    else recurse (i + 1) acc
  else acc

/-- The per-offset scan loop, fuel-indexed. -/
def scanLoop (mm : ByteSource) (regionStart regionEnd initialEnd : Nat) :
    Nat → Nat → List (List Nat) → List (List Nat)
  | 0, _, acc => acc
  | fuel + 1, i, acc =>
    scanBody mm regionStart regionEnd initialEnd i acc
      (scanLoop mm regionStart regionEnd initialEnd fuel)

/-- The leading-null skip (`while i < initial_end and mm[i] == 0x00`), fuel-indexed. -/
def skipNulls (mm : ByteSource) (initialEnd : Nat) : Nat → Nat → Nat
  | 0, i => i
  | fuel + 1, i =>
    if i < initialEnd ∧ mm.data i = 0 then skipNulls mm initialEnd fuel (i + 1) else i

/-- `initial_end = min(region_start + MAX_INITIAL_SCAN_IN_REGION, region_end - AES_KEY_SIZE)`. -/
def initialEndOf (r : Region) : Nat :=
  min (r.start + MAX_INITIAL_SCAN_IN_REGION) (r.stop - AES_KEY_SIZE)

/-- `find_aes_keys_in_regions`: scan each region in turn, accumulating the
deduplicated key-candidate set. -/
def find_aes_keys_in_regions (mm : ByteSource) (regions : List Region) : List (List Nat) :=
  regions.foldl
    (fun acc r =>
      let initialEnd := initialEndOf r
      let i0 := skipNulls mm initialEnd (initialEnd + 1) r.start
      scanLoop mm r.start r.stop initialEnd (initialEnd + 1) i0 acc)
    []

/-- The entries of `main`'s `scan_steps` table. -/
inductive ScanStep where
  | minidump
  | looseForward
  | looseBackward
deriving DecidableEq, Repr

/-- The region-discovery call performed by one `scan_steps` entry. -/
def stepRegions (mm : ByteSource) (segs64 : Option (List MemorySegment)) :
    ScanStep → List Region
  | ScanStep.minidump => find_regions_from_minidump segs64
  | ScanStep.looseForward => find_regions_loose mm ScanMode.Forward
  | ScanStep.looseBackward => find_regions_loose mm ScanMode.Backward

/-- `main`'s strategy loop: skip a strategy that finds no regions, otherwise run the
key scanner on its regions; stop at the first non-empty key set. -/
def mainLoop (mm : ByteSource) (segs64 : Option (List MemorySegment)) :
    List ScanStep → List (List Nat)
  | [] => []
  | step :: rest =>
    let regions := stepRegions mm segs64 step
    if regions = [] then mainLoop mm segs64 rest
    else
      let keys := find_aes_keys_in_regions mm regions
      if keys = [] then mainLoop mm segs64 rest else keys

/-- `main`'s orchestration with the fixed `scan_steps` priority order: minidump,
loose forward, loose backward. -/
def main_scan (mm : ByteSource) (segs64 : Option (List MemorySegment)) : List (List Nat) :=
  mainLoop mm segs64 [ScanStep.minidump, ScanStep.looseForward, ScanStep.looseBackward]

/-! ### Concrete byte sources and specification-side definitions -/

/-- 10,000 nulls; a stray non-null byte `0x42` at offset 10,000; a `0x01` at offset
10,001; non-null filler up to offset 35,100; then 10,000 nulls (total 45,101 bytes). -/
def mmC1 : ByteSource :=
  ⟨fun k => if k < 10000 then 0 else if k = 10000 then 66 else if k = 10001 then 1
    else if k < 35101 then 2 else 0, 45101⟩

/-- 25,000 non-null bytes followed by 10,000 nulls (total 35,000 bytes). -/
def mmC2 : ByteSource := ⟨fun k => if k < 25000 then 2 else 0, 35000⟩

/-- Structured discovery written as the spec describes it (C8): size-filter the
declared segments, then convert each survivor to a `Region`, preserving order. -/
def structuredSpec (segs : List MemorySegment) : List Region :=
  (segs.filter
      (fun seg => decide (MIN_REGION_SIZE < seg.size ∧ seg.size ≤ MAX_REGION_SIZE))).map
    (fun seg => ⟨seg.start_file_address, seg.start_file_address + seg.size, seg.size⟩)

/-- A 64-byte source whose content is the 32-byte block `01 02 ... 20` repeated
twice: the only later occurrence of the leading window is at offset 32 exactly. -/
def mmC4 : ByteSource := ⟨fun k => k % 32 + 1, 64⟩

/-- A 64-byte source with 16-periodic content `01 ... 10 01 ... 10 ...`: the
leading 32-byte window recurs at offset 16, strictly inside the lookahead range. -/
def mmC4w : ByteSource := ⟨fun k => k % 16 + 1, 64⟩

/-- The orchestration described by C7, as a nested fallback chain: report the first
strategy (structured, forward, backward — in that order) whose regions are
non-empty and yield at least one candidate; report nothing when all three are
exhausted. -/
def orchestrateSpec (mm : ByteSource) (segs64 : Option (List MemorySegment)) :
    List (List Nat) :=
  let r1 := find_regions_from_minidump segs64
  let r2 := find_regions_loose mm ScanMode.Forward
  let r3 := find_regions_loose mm ScanMode.Backward
  if r1 ≠ [] ∧ find_aes_keys_in_regions mm r1 ≠ [] then find_aes_keys_in_regions mm r1
  else if r2 ≠ [] ∧ find_aes_keys_in_regions mm r2 ≠ [] then find_aes_keys_in_regions mm r2
  else if r3 ≠ [] ∧ find_aes_keys_in_regions mm r3 ≠ [] then find_aes_keys_in_regions mm r3
  else []

/-! ### Characterisations of the byte-search primitives -/

theorem allZero_iff (mm : ByteSource) (len p : Nat) :
    allZero mm p len = true ↔ ∀ k, k < len → mm.data (p + k) = 0 := by
  induction len generalizing p with
  | zero => simp [allZero]
  | succ len ih =>
    simp only [allZero, Bool.and_eq_true, beq_iff_eq]
    rw [ih (p + 1)]
    constructor
    · rintro ⟨h0, h⟩ k hk
      cases k with
      | zero => simpa using h0
      | succ k =>
        have hh := h k (by omega)
        rwa [show p + 1 + k = p + (k + 1) by omega] at hh
    · intro h
      refine ⟨by simpa using h 0 (by omega), fun k hk => ?_⟩
      have hh := h (k + 1) (by omega)
      rwa [show p + (k + 1) = p + 1 + k by omega] at hh

theorem findByteAux_some (mm : ByteSource) (b : Nat) (fuel : Nat) :
    ∀ pos p, findByteAux mm b fuel pos = some p →
      pos ≤ p ∧ p < mm.size ∧ mm.data p = b ∧ ∀ q, pos ≤ q → q < p → mm.data q ≠ b := by
  induction fuel with
  | zero => intro pos p h; simp [findByteAux] at h
  | succ fuel ih =>
    intro pos p h
    simp only [findByteAux] at h
    split at h
    · rename_i hin
      split at h
      · rename_i hb
        cases h
        exact ⟨le_rfl, hin, by simpa using hb, fun q h1 h2 => absurd (Nat.lt_of_le_of_lt h1 h2) (lt_irrefl _)⟩
      · rename_i hb
        obtain ⟨h1, h2, h3, h4⟩ := ih (pos + 1) p h
        refine ⟨by omega, h2, h3, fun q hq1 hq2 => ?_⟩
        rcases Nat.eq_or_lt_of_le hq1 with rfl | hlt
        · simpa using hb
        · exact h4 q (by omega) hq2
    · exact absurd h (by simp)

theorem findByteAux_complete (mm : ByteSource) (b : Nat) (fuel : Nat) :
    ∀ pos p, pos ≤ p → p < mm.size → mm.data p = b →
      (∀ q, pos ≤ q → q < p → mm.data q ≠ b) → p < pos + fuel →
      findByteAux mm b fuel pos = some p := by
  induction fuel with
  | zero => intro pos p h1 _ _ _ h5; omega
  | succ fuel ih =>
    intro pos p h1 h2 h3 h4 h5
    simp only [findByteAux]
    rcases Nat.eq_or_lt_of_le h1 with rfl | hlt
    · rw [if_pos h2, if_pos (by simpa using h3)]
    · rw [if_pos (show pos < mm.size by omega),
        if_neg (by simpa using h4 pos le_rfl hlt)]
      exact ih (pos + 1) p (by omega) h2 h3 (fun q hq1 hq2 => h4 q (by omega) hq2) (by omega)

/-- `findByte` returns exactly the first occurrence of byte `b` at or after `pos`. -/
theorem findByte_eq_some (mm : ByteSource) (b pos p : Nat) :
    findByte mm b pos = some p ↔
      pos ≤ p ∧ p < mm.size ∧ mm.data p = b ∧ ∀ q, pos ≤ q → q < p → mm.data q ≠ b := by
  constructor
  · exact findByteAux_some mm b _ pos p
  · rintro ⟨h1, h2, h3, h4⟩
    exact findByteAux_complete mm b _ pos p h1 h2 h3 h4 (by omega)

theorem findNullRunAux_some (mm : ByteSource) (len : Nat) (fuel : Nat) :
    ∀ pos p, findNullRunAux mm len fuel pos = some p →
      pos ≤ p ∧ p + len ≤ mm.size ∧ allZero mm p len = true ∧
        ∀ q, pos ≤ q → q < p → allZero mm q len = false := by
  induction fuel with
  | zero => intro pos p h; simp [findNullRunAux] at h
  | succ fuel ih =>
    intro pos p h
    simp only [findNullRunAux] at h
    split at h
    · rename_i hin
      split at h
      · rename_i hz
        cases h
        exact ⟨le_rfl, hin, hz, fun q h1 h2 => absurd (Nat.lt_of_le_of_lt h1 h2) (lt_irrefl _)⟩
      · rename_i hz
        obtain ⟨h1, h2, h3, h4⟩ := ih (pos + 1) p h
        refine ⟨by omega, h2, h3, fun q hq1 hq2 => ?_⟩
        rcases Nat.eq_or_lt_of_le hq1 with rfl | hlt
        · exact Bool.eq_false_iff.mpr hz
        · exact h4 q (by omega) hq2
    · exact absurd h (by simp)

theorem findNullRunAux_complete (mm : ByteSource) (len : Nat) (fuel : Nat) :
    ∀ pos p, pos ≤ p → p + len ≤ mm.size → allZero mm p len = true →
      (∀ q, pos ≤ q → q < p → allZero mm q len = false) → p < pos + fuel →
      findNullRunAux mm len fuel pos = some p := by
  induction fuel with
  | zero => intro pos p h1 _ _ _ h5; omega
  | succ fuel ih =>
    intro pos p h1 h2 h3 h4 h5
    simp only [findNullRunAux]
    rcases Nat.eq_or_lt_of_le h1 with rfl | hlt
    · rw [if_pos h2, if_pos h3]
    · rw [if_pos (show pos + len ≤ mm.size by omega),
        if_neg (by simp [h4 pos le_rfl hlt])]
      exact ih (pos + 1) p (by omega) h2 h3 (fun q hq1 hq2 => h4 q (by omega) hq2) (by omega)

/-- `findNullRun` returns exactly the first in-bounds null run at or after `pos`. -/
theorem findNullRun_eq_some (mm : ByteSource) (len pos p : Nat) :
    findNullRun mm len pos = some p ↔
      pos ≤ p ∧ p + len ≤ mm.size ∧ allZero mm p len = true ∧
        ∀ q, pos ≤ q → q < p → allZero mm q len = false := by
  constructor
  · exact findNullRunAux_some mm len _ pos p
  · rintro ⟨h1, h2, h3, h4⟩
    exact findNullRunAux_complete mm len _ pos p h1 h2 h3 h4 (by omega)

/-! ### Single-iteration lemmas for the heuristic scan loops -/

theorem forwardScanAux_stop (mm : ByteSource) (fuel pos : Nat) (h : ¬ pos < mm.size) :
    forwardScanAux mm (fuel + 1) pos = [] := by
  show forwardScanBody mm pos (forwardScanAux mm fuel) = []
  rw [forwardScanBody, if_neg h]

theorem forwardScanAux_step (mm : ByteSource) (fuel pos startNull nextNonNull endNull : Nat)
    (hpos : pos < mm.size)
    (h1 : findNullRun mm MIN_NULL_START_REGION_SIZE pos = some startNull)
    (h2 : findByte mm 1 (startNull + MIN_NULL_START_REGION_SIZE) = some nextNonNull)
    (h3 : nextNonNull < mm.size)
    (h4 : findNullRun mm MIN_NULL_END_REGION_SIZE nextNonNull = some endNull)
    (h5 : MIN_REGION_SIZE < endNull - nextNonNull ∧ endNull - nextNonNull ≤ MAX_REGION_SIZE) :
    forwardScanAux mm (fuel + 1) pos =
      ⟨nextNonNull, endNull, endNull - nextNonNull⟩ ::
        forwardScanAux mm fuel (endNull + MIN_NULL_START_REGION_SIZE) := by
  have hns : ¬ mm.size ≤ nextNonNull := by omega
  show forwardScanBody mm pos (forwardScanAux mm fuel) = _
  rw [forwardScanBody, if_pos hpos, h1, Option.elim_some, h2, Option.elim_some,
    if_neg hns, h4, Option.elim_some, if_pos h5]

theorem backwardScanAux_stop (mm : ByteSource) (fuel pos : Nat) (h : ¬ pos < mm.size) :
    backwardScanAux mm (fuel + 1) pos = [] := by
  show backwardScanBody mm pos (backwardScanAux mm fuel) = []
  rw [backwardScanBody, if_neg h]

theorem backwardScanAux_step_emit (mm : ByteSource)
    (fuel pos endNull regionStart checkStart : Nat)
    (hpos : pos < mm.size)
    (h1 : findNullRun mm MIN_NULL_END_REGION_SIZE pos = some endNull)
    (hrs : regionStart = endNull - AVERAGE_REGION_SIZE)
    (hcs : checkStart = max regionStart (endNull - PRE_NULL_CHECK))
    (h2 : countZero mm checkStart (endNull - checkStart) ≠ endNull - checkStart)
    (h3 : MIN_REGION_SIZE ≤ endNull - regionStart) :
    backwardScanAux mm (fuel + 1) pos =
      ⟨regionStart, endNull, endNull - regionStart⟩ ::
        backwardScanAux mm fuel (endNull + MIN_NULL_END_REGION_SIZE) := by
  show backwardScanBody mm pos (backwardScanAux mm fuel) = _
  rw [backwardScanBody, if_pos hpos, h1, Option.elim_some, ← hrs]
  dsimp only
  rw [← hcs, if_neg h2, if_pos h3]

/-! ### Concrete byte sources for counterexamples and witnesses -/

/-- On `mmC1`, the forward heuristic scan emits exactly one region, starting at the
first `0x01` byte (offset 10,001), not at the first non-zero byte (offset 10,000). -/
theorem mmC1_forward_eval :
    find_regions_loose mmC1 ScanMode.Forward = [⟨10001, 35101, 25100⟩] := by
  have e1 : MIN_NULL_START_REGION_SIZE = 10000 := rfl
  have e2 : MIN_NULL_END_REGION_SIZE = 10000 := rfl
  have hsz : mmC1.size = 45101 := rfl
  have h1 : findNullRun mmC1 MIN_NULL_START_REGION_SIZE 0 = some 0 := by
    rw [findNullRun_eq_some, e1]
    refine ⟨le_rfl, by rw [hsz]; try omega, ?_, fun q hq1 hq2 => by omega⟩
    rw [allZero_iff]
    intro k hk
    simp only [mmC1]
    rw [if_pos (by omega)]
  have h2 : findByte mmC1 1 (0 + MIN_NULL_START_REGION_SIZE) = some 10001 := by
    rw [findByte_eq_some, e1]
    refine ⟨by omega, by rw [hsz]; try omega, ?_, fun q hq1 hq2 => ?_⟩
    · simp [mmC1]
    · have hq : q = 10000 := by omega
      subst hq
      simp [mmC1]
  have h3 : findNullRun mmC1 MIN_NULL_END_REGION_SIZE 10001 = some 35101 := by
    rw [findNullRun_eq_some, e2]
    refine ⟨by omega, by rw [hsz]; try omega, ?_, fun q hq1 hq2 => ?_⟩
    · rw [allZero_iff]
      intro k hk
      simp only [mmC1]
      rw [if_neg (by omega), if_neg (by omega), if_neg (by omega), if_neg (by omega)]
    · rw [Bool.eq_false_iff]
      intro hcontra
      rw [allZero_iff] at hcontra
      have hc := hcontra 0 (by omega)
      simp only [mmC1] at hc
      rw [if_neg (by omega), if_neg (by omega)] at hc
      split_ifs at hc
      all_goals omega
  have hstep := forwardScanAux_step mmC1 mmC1.size 0 0 10001 35101
    (by rw [hsz]; omega) h1 h2 (by rw [hsz]; omega) h3
    (⟨by norm_num [MIN_REGION_SIZE], by norm_num [MAX_REGION_SIZE]⟩)
  have hstop : forwardScanAux mmC1 mmC1.size (35101 + MIN_NULL_START_REGION_SIZE) = [] := by
    have hf : mmC1.size = 45100 + 1 := rfl
    rw [hf]
    exact forwardScanAux_stop mmC1 45100 _ (by rw [e1, hsz]; omega)
  show forwardScanAux mmC1 (mmC1.size + 1) 0 = _
  rw [hstep, hstop]

/-- On `mmC2`, the backward heuristic scan emits exactly one region, of size exactly
`MIN_REGION_SIZE` (the source's non-strict `region_size >= MIN_REGION_SIZE` check). -/
theorem mmC2_backward_eval :
    find_regions_loose mmC2 ScanMode.Backward = [⟨0, 25000, 25000⟩] := by
  have e2 : MIN_NULL_END_REGION_SIZE = 10000 := rfl
  have hsz : mmC2.size = 35000 := rfl
  have h1 : findNullRun mmC2 MIN_NULL_END_REGION_SIZE 0 = some 25000 := by
    rw [findNullRun_eq_some, e2]
    refine ⟨by omega, by rw [hsz]; try omega, ?_, fun q hq1 hq2 => ?_⟩
    · rw [allZero_iff]
      intro k hk
      simp only [mmC2]
      rw [if_neg (by omega)]
    · rw [Bool.eq_false_iff]
      intro hcontra
      rw [allZero_iff] at hcontra
      have hc := hcontra 0 (by omega)
      simp only [mmC2] at hc
      rw [if_pos (by omega)] at hc
      omega
  have hcount : countZero mmC2 24936 (25000 - 24936) ≠ 25000 - 24936 := by decide
  have hstep := backwardScanAux_step_emit mmC2 mmC2.size 0 25000 0 24936
    (by rw [hsz]; omega) h1 (by norm_num [AVERAGE_REGION_SIZE])
    (by norm_num [AVERAGE_REGION_SIZE, PRE_NULL_CHECK]) hcount
    (by norm_num [MIN_REGION_SIZE, AVERAGE_REGION_SIZE])
  have hstop : backwardScanAux mmC2 mmC2.size (25000 + MIN_NULL_END_REGION_SIZE) = [] := by
    have hf : mmC2.size = 34999 + 1 := rfl
    rw [hf]
    exact backwardScanAux_stop mmC2 34999 _ (by rw [e2, hsz]; omega)
  show backwardScanAux mmC2 (mmC2.size + 1) 0 = _
  rw [hstep, hstop]

/-! ### Structure of the regions emitted by the heuristic scans -/

theorem forwardScanBody_mem (mm : ByteSource) (pos : Nat) (recurse : Nat → List Region)
    (r : Region) (hr : r ∈ forwardScanBody mm pos recurse) :
    ∃ startNull nextNonNull endNull,
      findNullRun mm MIN_NULL_START_REGION_SIZE pos = some startNull ∧
      findByte mm 1 (startNull + MIN_NULL_START_REGION_SIZE) = some nextNonNull ∧
      findNullRun mm MIN_NULL_END_REGION_SIZE nextNonNull = some endNull ∧
      ((r = ⟨nextNonNull, endNull, endNull - nextNonNull⟩ ∧
          MIN_REGION_SIZE < endNull - nextNonNull ∧ endNull - nextNonNull ≤ MAX_REGION_SIZE) ∨
        r ∈ recurse (endNull + MIN_NULL_START_REGION_SIZE)) := by
  rw [forwardScanBody] at hr
  split at hr
  · rcases Option.eq_none_or_eq_some (findNullRun mm MIN_NULL_START_REGION_SIZE pos) with
      h1 | ⟨startNull, h1⟩
    · rw [h1, Option.elim_none] at hr
      simp at hr
    · rw [h1, Option.elim_some] at hr
      rcases Option.eq_none_or_eq_some (findByte mm 1 (startNull + MIN_NULL_START_REGION_SIZE))
        with h2 | ⟨nextNonNull, h2⟩
      · rw [h2, Option.elim_none] at hr
        simp at hr
      · rw [h2, Option.elim_some] at hr
        split at hr
        · simp at hr
        · rcases Option.eq_none_or_eq_some (findNullRun mm MIN_NULL_END_REGION_SIZE nextNonNull)
            with h4 | ⟨endNull, h4⟩
          · rw [h4, Option.elim_none] at hr
            simp at hr
          · rw [h4, Option.elim_some] at hr
            dsimp only at hr
            refine ⟨startNull, nextNonNull, endNull, h1, h2, h4, ?_⟩
            split at hr
            · rcases List.mem_cons.mp hr with hcase | hcase
              · rename_i hguard
                exact Or.inl ⟨hcase, hguard⟩
              · exact Or.inr hcase
            · exact Or.inr hr
  · simp at hr

theorem forwardScanAux_mem (mm : ByteSource) :
    ∀ fuel pos r, r ∈ forwardScanAux mm fuel pos →
      pos ≤ r.start ∧ r.size = r.stop - r.start ∧
      MIN_REGION_SIZE < r.size ∧ r.size ≤ MAX_REGION_SIZE ∧
      mm.data r.start = 1 ∧
      ∃ s, pos ≤ s ∧ allZero mm s MIN_NULL_START_REGION_SIZE = true ∧
        s + MIN_NULL_START_REGION_SIZE ≤ r.start ∧
        ∀ k, s + MIN_NULL_START_REGION_SIZE ≤ k → k < r.start → mm.data k ≠ 1 := by
  intro fuel
  induction fuel with
  | zero => intro pos r hr; simp [forwardScanAux] at hr
  | succ fuel ih =>
    intro pos r hr
    obtain ⟨sn, nn, en, h1, h2, h4, hcase⟩ :=
      forwardScanBody_mem mm pos (forwardScanAux mm fuel) r hr
    obtain ⟨hs1, hs2, hz1, hfirst1⟩ := (findNullRun_eq_some mm _ pos sn).mp h1
    obtain ⟨hb1, hb2, hb3, hb4⟩ := (findByte_eq_some mm 1 _ nn).mp h2
    obtain ⟨he1, he2, he3, he4⟩ := (findNullRun_eq_some mm _ nn en).mp h4
    rcases hcase with ⟨rfl, hmin, hmax⟩ | hrec
    · refine ⟨by show pos ≤ nn; omega, rfl, hmin, hmax, hb3, sn, hs1, hz1, hb1, ?_⟩
      intro k hk1 hk2
      exact hb4 k hk1 hk2
    · obtain ⟨hp, hsz, hmin, hmax, hdata, s, hs, hz, hle, hne⟩ :=
        ih (en + MIN_NULL_START_REGION_SIZE) r hrec
      exact ⟨by omega, hsz, hmin, hmax, hdata, s, by omega, hz, hle, hne⟩

theorem forwardScanAux_pairwise (mm : ByteSource) :
    ∀ fuel pos, (forwardScanAux mm fuel pos).Pairwise (fun a b => a.stop ≤ b.start) := by
  intro fuel
  induction fuel with
  | zero => intro pos; simp [forwardScanAux]
  | succ fuel ih =>
    intro pos
    show (forwardScanBody mm pos (forwardScanAux mm fuel)).Pairwise _
    rw [forwardScanBody]
    split
    · rcases Option.eq_none_or_eq_some (findNullRun mm MIN_NULL_START_REGION_SIZE pos) with
        h1 | ⟨startNull, h1⟩
      · rw [h1, Option.elim_none]; exact List.Pairwise.nil
      · rw [h1, Option.elim_some]
        rcases Option.eq_none_or_eq_some (findByte mm 1 (startNull + MIN_NULL_START_REGION_SIZE))
          with h2 | ⟨nextNonNull, h2⟩
        · rw [h2, Option.elim_none]; exact List.Pairwise.nil
        · rw [h2, Option.elim_some]
          split
          · exact List.Pairwise.nil
          · rcases Option.eq_none_or_eq_some (findNullRun mm MIN_NULL_END_REGION_SIZE nextNonNull)
              with h4 | ⟨endNull, h4⟩
            · rw [h4, Option.elim_none]; exact List.Pairwise.nil
            · rw [h4, Option.elim_some]
              dsimp only
              split
              · refine List.Pairwise.cons ?_ (ih _)
                intro b hb
                have hstart := (forwardScanAux_mem mm fuel (endNull + MIN_NULL_START_REGION_SIZE) b hb).1
                show endNull ≤ b.start
                omega
              · exact ih _
    · exact List.Pairwise.nil

theorem backwardScanBody_mem (mm : ByteSource) (pos : Nat) (recurse : Nat → List Region)
    (r : Region) (hr : r ∈ backwardScanBody mm pos recurse) :
    ∃ endNull,
      (r = ⟨endNull - AVERAGE_REGION_SIZE, endNull,
            endNull - (endNull - AVERAGE_REGION_SIZE)⟩ ∧
          MIN_REGION_SIZE ≤ endNull - (endNull - AVERAGE_REGION_SIZE)) ∨
        r ∈ recurse (endNull + MIN_NULL_END_REGION_SIZE) := by
  rw [backwardScanBody] at hr
  split at hr
  · rcases Option.eq_none_or_eq_some (findNullRun mm MIN_NULL_END_REGION_SIZE pos) with
      h1 | ⟨endNull, h1⟩
    · rw [h1, Option.elim_none] at hr
      simp at hr
    · rw [h1, Option.elim_some] at hr
      dsimp only at hr
      refine ⟨endNull, ?_⟩
      split at hr
      · exact Or.inr hr
      · split at hr
        · rcases List.mem_cons.mp hr with hcase | hcase
          · rename_i hguard
            exact Or.inl ⟨hcase, hguard⟩
          · exact Or.inr hcase
        · exact Or.inr hr
  · simp at hr

theorem backwardScanAux_mem (mm : ByteSource) :
    ∀ fuel pos r, r ∈ backwardScanAux mm fuel pos →
      MIN_REGION_SIZE ≤ r.size ∧ r.size ≤ AVERAGE_REGION_SIZE := by
  intro fuel
  induction fuel with
  | zero => intro pos r hr; simp [backwardScanAux] at hr
  | succ fuel ih =>
    intro pos r hr
    obtain ⟨en, hcase⟩ := backwardScanBody_mem mm pos (backwardScanAux mm fuel) r hr
    rcases hcase with ⟨rfl, hmin⟩ | hrec
    · exact ⟨hmin, by dsimp only; omega⟩
    · exact ih (en + MIN_NULL_END_REGION_SIZE) r hrec

theorem structured_eq_spec (segs : List MemorySegment) :
    find_regions_from_minidump (some segs) = structuredSpec segs := by
  induction segs with
  | nil => rfl
  | cons seg rest ih =>
    show (if MIN_REGION_SIZE < seg.size ∧ seg.size ≤ MAX_REGION_SIZE then
        (⟨seg.start_file_address, seg.start_file_address + seg.size, seg.size⟩ : Region) ::
          find_regions_from_minidump (some rest)
      else find_regions_from_minidump (some rest)) = structuredSpec (seg :: rest)
    rw [structuredSpec, List.filter_cons]
    by_cases hseg : MIN_REGION_SIZE < seg.size ∧ seg.size ≤ MAX_REGION_SIZE
    · rw [if_pos hseg, if_pos (by exact decide_eq_true hseg), List.map_cons, ih,
        structuredSpec]
    · rw [if_neg hseg, if_neg (by simpa using hseg), ih, structuredSpec]

/-! ### Claim theorems: region discovery -/

/-- The first `MIN_NULL_START_REGION_SIZE`-byte null block of `mmC1` starts at
offset 0 (so it covers offsets `0 ≤ k < 10000` and ends at offset 10,000). -/
theorem mmC1_nullrun0 : findNullRun mmC1 MIN_NULL_START_REGION_SIZE 0 = some 0 := by
  have e1 : MIN_NULL_START_REGION_SIZE = 10000 := rfl
  rw [findNullRun_eq_some, e1]
  refine ⟨le_rfl, by norm_num [mmC1], ?_, fun q hq1 hq2 => by omega⟩
  rw [allZero_iff]
  intro k hk
  simp only [mmC1]
  rw [if_pos (by omega)]

/-- C1 is refuted on `mmC1`: the forward scan locates the null block `[0, 10000)`
ending at offset 10,000, yet the emitted region starts at offset 10,001 (the first
`0x01` byte), and the byte at offset 10,000 — strictly between the end of the null
block and the region start — is `0x42 ≠ 0`.  So the region start is not the first
non-zero byte after the null block, and the bytes in between are not all zero. -/
theorem C1_counterexample :
    find_regions_loose mmC1 ScanMode.Forward = [⟨10001, 35101, 25100⟩] ∧
      findNullRun mmC1 MIN_NULL_START_REGION_SIZE 0 = some 0 ∧
      mmC1.data 10000 = 66 := by
  exact ⟨mmC1_forward_eval, mmC1_nullrun0, rfl⟩

/-- C1 (amended): in forward-mode heuristic discovery the candidate region start is
the offset of the first byte **equal to `0x01`** at or after the end of the located
null block: the byte at the region start is `0x01` (hence non-zero), and every byte
between the end of the null block and the region start differs from `0x01` (but
need not be zero). -/
theorem C1_region_start_first_x01 (mm : ByteSource) (r : Region)
    (hr : r ∈ find_regions_loose mm ScanMode.Forward) :
    mm.data r.start = 1 ∧
      ∃ s, allZero mm s MIN_NULL_START_REGION_SIZE = true ∧
        s + MIN_NULL_START_REGION_SIZE ≤ r.start ∧
        ∀ k, s + MIN_NULL_START_REGION_SIZE ≤ k → k < r.start → mm.data k ≠ 1 := by
  have hmem := forwardScanAux_mem mm (mm.size + 1) 0 r hr
  obtain ⟨-, -, -, -, hdata, s, -, hz, hle, hne⟩ := hmem
  exact ⟨hdata, s, hz, hle, hne⟩

/-- Witness for the amended C1: on `mmC1` the region `⟨10001, 35101, 25100⟩` is
emitted, its start byte is `0x01`, and a null block ends at or before it with no
`0x01` byte in between. -/
theorem C1_region_start_first_x01_witness :
    (⟨10001, 35101, 25100⟩ : Region) ∈ find_regions_loose mmC1 ScanMode.Forward ∧
      (mmC1.data (10001 : Nat) = 1 ∧
        ∃ s, allZero mmC1 s MIN_NULL_START_REGION_SIZE = true ∧
          s + MIN_NULL_START_REGION_SIZE ≤ 10001 ∧
          ∀ k, s + MIN_NULL_START_REGION_SIZE ≤ k → k < 10001 → mmC1.data k ≠ 1) := by
  have hmem : (⟨10001, 35101, 25100⟩ : Region) ∈ find_regions_loose mmC1 ScanMode.Forward := by
    rw [mmC1_forward_eval]
    exact List.mem_singleton.mpr rfl
  exact ⟨hmem, C1_region_start_first_x01 mmC1 ⟨10001, 35101, 25100⟩ hmem⟩

/-- C2 is refuted on `mmC2`: backward discovery emits the region `⟨0, 25000, 25000⟩`
whose size equals `MIN_REGION_SIZE` exactly, violating the claimed strict lower
bound `MIN_REGION_SIZE < size` (the source checks `region_size >= MIN_REGION_SIZE`). -/
theorem C2_counterexample :
    find_regions_loose mmC2 ScanMode.Backward = [⟨0, 25000, 25000⟩] ∧
      ¬ MIN_REGION_SIZE < (25000 : Nat) := by
  exact ⟨mmC2_backward_eval, by norm_num [MIN_REGION_SIZE]⟩

/-- C2 (amended): structured and forward-heuristic regions satisfy
`MIN_REGION_SIZE < size ≤ MAX_REGION_SIZE`; backward-heuristic regions satisfy the
**non-strict** lower bound `MIN_REGION_SIZE ≤ size`, with no upper bound checked in
that mode. -/
theorem C2_region_size_bounds :
    (∀ segs : List MemorySegment,
        (find_regions_from_minidump (some segs)).Forall
          (fun r => MIN_REGION_SIZE < r.size ∧ r.size ≤ MAX_REGION_SIZE)) ∧
      (∀ mm : ByteSource,
        (find_regions_loose mm ScanMode.Forward).Forall
          (fun r => MIN_REGION_SIZE < r.size ∧ r.size ≤ MAX_REGION_SIZE)) ∧
      (∀ mm : ByteSource,
        (find_regions_loose mm ScanMode.Backward).Forall
          (fun r => MIN_REGION_SIZE ≤ r.size)) := by
  refine ⟨fun segs => ?_, fun mm => ?_, fun mm => ?_⟩
  · rw [List.forall_iff_forall_mem]
    intro r hr
    rw [structured_eq_spec, structuredSpec] at hr
    obtain ⟨seg, hseg, rfl⟩ := List.mem_map.mp hr
    have hb : MIN_REGION_SIZE < seg.size ∧ seg.size ≤ MAX_REGION_SIZE := by
      simpa using (List.mem_filter.mp hseg).2
    exact ⟨hb.1, hb.2⟩
  · rw [List.forall_iff_forall_mem]
    intro r hr
    have hmem := forwardScanAux_mem mm (mm.size + 1) 0 r hr
    exact ⟨hmem.2.2.1, hmem.2.2.2.1⟩
  · rw [List.forall_iff_forall_mem]
    intro r hr
    exact (backwardScanAux_mem mm (mm.size + 1) 0 r hr).1

/-- C6: the regions emitted by a single forward-mode heuristic scan pass are
pairwise disjoint — each emitted region starts at or after the end (`stop`) of the
previously emitted one. -/
theorem C6_forward_regions_disjoint (mm : ByteSource) :
    (find_regions_loose mm ScanMode.Forward).Pairwise (fun a b => a.stop ≤ b.start) :=
  forwardScanAux_pairwise mm (mm.size + 1) 0

/-- C10: every backward-heuristic region has
`size = end - max (0, end - AVERAGE_REGION_SIZE) ≤ AVERAGE_REGION_SIZE = 100,000`,
hence never exceeds `MAX_REGION_SIZE = 2,097,152` even though that mode checks no
upper bound. -/
theorem C10_backward_size_bounded (mm : ByteSource) :
    (find_regions_loose mm ScanMode.Backward).Forall
      (fun r => r.size ≤ AVERAGE_REGION_SIZE ∧ r.size ≤ MAX_REGION_SIZE) := by
  rw [List.forall_iff_forall_mem]
  intro r hr
  have havg : AVERAGE_REGION_SIZE ≤ MAX_REGION_SIZE := by
    norm_num [AVERAGE_REGION_SIZE, MAX_REGION_SIZE]
  have hmem := (backwardScanAux_mem mm (mm.size + 1) 0 r hr).2
  exact ⟨hmem, by omega⟩

/-! ### Structure of the key-candidate scanner -/

theorem setAdd_mem (s : List (List Nat)) (x k : List Nat) (h : k ∈ setAdd s x) :
    k ∈ s ∨ k = x := by
  rw [setAdd] at h
  split at h
  · exact Or.inl h
  · rcases List.mem_append.mp h with h | h
    · exact Or.inl h
    · exact Or.inr (List.mem_singleton.mp h)

theorem scanLoop_mem (mm : ByteSource) (regionStart regionEnd initialEnd : Nat) :
    ∀ fuel i acc k, k ∈ scanLoop mm regionStart regionEnd initialEnd fuel i acc →
      k ∈ acc ∨
        ∃ j, i ≤ j ∧ j + AES_KEY_SIZE ≤ initialEnd ∧
          k = sliceBS mm j (j + AES_KEY_SIZE) ∧
          regionStart + 2 ≤ j ∧ sliceBS mm (j - 2) j = [0, 0] ∧
          entropyGate k = true ∧
          REQUIRED_REPEATS ≤ repeatCount mm regionEnd j k := by
  intro fuel
  induction fuel with
  | zero => intro i acc k hk; exact Or.inl hk
  | succ fuel ih =>
    intro i acc k hk
    have wk : ∀ acc', k ∈ scanLoop mm regionStart regionEnd initialEnd fuel (i + 1) acc' →
        k ∈ acc' ∨
          ∃ j, i ≤ j ∧ j + AES_KEY_SIZE ≤ initialEnd ∧
            k = sliceBS mm j (j + AES_KEY_SIZE) ∧
            regionStart + 2 ≤ j ∧ sliceBS mm (j - 2) j = [0, 0] ∧
            entropyGate k = true ∧
            REQUIRED_REPEATS ≤ repeatCount mm regionEnd j k := by
      intro acc' h
      rcases ih (i + 1) acc' k h with h | ⟨j, hj, hr⟩
      · exact Or.inl h
      · exact Or.inr ⟨j, by omega, hr⟩
    have hk' : k ∈ scanBody mm regionStart regionEnd initialEnd i acc
        (scanLoop mm regionStart regionEnd initialEnd fuel) := hk
    rw [scanBody] at hk'
    split at hk'
    · dsimp only at hk'
      split at hk'
      · exact wk acc hk'
      · split at hk'
        · exact wk acc hk'
        · split at hk'
          · exact wk acc hk'
          · split at hk'
            · split at hk'
              · rename_i hin hhead hcount hpre hent hrep
                rcases wk (setAdd acc (sliceBS mm i (i + AES_KEY_SIZE))) hk' with h | hex
                · rcases setAdd_mem acc _ k h with h | rfl
                  · exact Or.inl h
                  · have hpre' : regionStart + 2 ≤ i ∧ sliceBS mm (i - 2) i = [0, 0] := by
                      push_neg at hpre
                      exact ⟨by omega, hpre.2⟩
                    exact Or.inr ⟨i, le_rfl, hin, rfl, hpre'.1, hpre'.2, hent, hrep⟩
                · exact Or.inr hex
              · exact wk acc hk'
            · exact wk acc hk'
    · exact Or.inl hk'

theorem find_aes_keys_mem (mm : ByteSource) (regions : List Region) (k : List Nat)
    (hk : k ∈ find_aes_keys_in_regions mm regions) :
    ∃ r ∈ regions, ∃ j, r.start ≤ j ∧ j + AES_KEY_SIZE ≤ initialEndOf r ∧
      k = sliceBS mm j (j + AES_KEY_SIZE) ∧ r.start + 2 ≤ j ∧
      sliceBS mm (j - 2) j = [0, 0] ∧ entropyGate k = true ∧
      REQUIRED_REPEATS ≤ repeatCount mm r.stop j k := by
  have aux : ∀ (rs : List Region) (acc : List (List Nat)),
      k ∈ rs.foldl
        (fun acc r =>
          let initialEnd := initialEndOf r
          let i0 := skipNulls mm initialEnd (initialEnd + 1) r.start
          scanLoop mm r.start r.stop initialEnd (initialEnd + 1) i0 acc)
        acc →
      k ∈ acc ∨
        ∃ r ∈ rs, ∃ j, r.start ≤ j ∧ j + AES_KEY_SIZE ≤ initialEndOf r ∧
          k = sliceBS mm j (j + AES_KEY_SIZE) ∧ r.start + 2 ≤ j ∧
          sliceBS mm (j - 2) j = [0, 0] ∧ entropyGate k = true ∧
          REQUIRED_REPEATS ≤ repeatCount mm r.stop j k := by
    intro rs
    induction rs with
    | nil => intro acc h; exact Or.inl h
    | cons r rest ih =>
      intro acc h
      rcases ih _ h with h' | ⟨r', hr', hrest⟩
      · rcases scanLoop_mem mm r.start r.stop (initialEndOf r) (initialEndOf r + 1) _ acc k h'
          with h'' | ⟨j, _, hj2, hj3, hj4, hj5, hj6, hj7⟩
        · exact Or.inl h''
        · exact Or.inr ⟨r, List.mem_cons_self r rest, j, by omega, hj2, hj3, hj4, hj5, hj6, hj7⟩
      · exact Or.inr ⟨r', List.mem_cons_of_mem r hr', hrest⟩
  rcases aux regions [] hk with h | h
  · exact absurd h (List.not_mem_nil k)
  · exact h

/-! ### Claim theorems: key-candidate scanner -/

/-- C3: a 32-byte window enters the scanner's result set only if, at some
acceptance offset `j` inside some scanned region, the verification loop's final
`repeat_count` — which starts at 1 for the original occurrence and is incremented
once for each subsequent occurrence found by the bounded-lookahead search starting
just past the previous one — reaches `REQUIRED_REPEATS`; windows whose sighting
chain stops short are never added. -/
theorem C3_required_repeats (mm : ByteSource) (regions : List Region) :
    (find_aes_keys_in_regions mm regions).Forall
      (fun k => ∃ r ∈ regions, ∃ j, k = sliceBS mm j (j + AES_KEY_SIZE) ∧
        REQUIRED_REPEATS ≤ repeatCount mm r.stop j k) := by
  rw [List.forall_iff_forall_mem]
  intro k hk
  obtain ⟨r, hr, j, -, -, hwin, -, -, -, hrep⟩ := find_aes_keys_mem mm regions k hk
  exact ⟨r, hr, j, hwin, hrep⟩

/-- C5: every candidate the scanner emits was accepted at an offset `j` with
`j - 2 ≥ region.start` and the two bytes at offsets `j - 2` and `j - 1` both null
(the slice `mm[j-2:j]` equals `00 00`). -/
theorem C5_preceding_null_bytes (mm : ByteSource) (regions : List Region) :
    (find_aes_keys_in_regions mm regions).Forall
      (fun k => ∃ r ∈ regions, ∃ j, r.start + 2 ≤ j ∧
        sliceBS mm (j - 2) j = [0, 0] ∧ k = sliceBS mm j (j + AES_KEY_SIZE)) := by
  rw [List.forall_iff_forall_mem]
  intro k hk
  obtain ⟨r, hr, j, -, -, hwin, hpre, hnull, -, -⟩ := find_aes_keys_mem mm regions k hk
  exact ⟨r, hr, j, hpre, hnull, hwin⟩

/-- C4 is refuted on `mmC4`: with `scan_pos = 0` and `region_end = 64` the bound
`min (region_end - AES_KEY_SIZE) (scan_pos + LOOKAHEAD)` is 32, the candidate does
occur at offset `j = 32` (which satisfies `scan_pos < j ≤` that bound), yet the
lookahead search finds nothing, because the source's
`range(scan_pos + 1, lookahead_end)` excludes the upper bound. -/
theorem C4_counterexample :
    sliceBS mmC4 32 (32 + AES_KEY_SIZE) = sliceBS mmC4 0 (0 + AES_KEY_SIZE) ∧
      0 < 32 ∧ 32 ≤ min (64 - AES_KEY_SIZE) (0 + LOOKAHEAD) ∧
      findNextOccurrence mmC4 64 (sliceBS mmC4 0 (0 + AES_KEY_SIZE)) 0 = none := by
  decide

/-- C4 (amended): each verification-loop search examines exactly the offsets `j`
with `scan_pos < j < min (region_end - AES_KEY_SIZE, scan_pos + LOOKAHEAD)` (upper
bound exclusive); an occurrence of the candidate strictly inside that range
guarantees the search returns an occurrence inside it. -/
theorem C4_lookahead_window (mm : ByteSource) (regionEnd : Nat) (candidate : List Nat)
    (scanPos j : Nat) (h1 : scanPos < j)
    (h2 : j < min (regionEnd - AES_KEY_SIZE) (scanPos + LOOKAHEAD))
    (h3 : sliceBS mm j (j + AES_KEY_SIZE) = candidate) :
    ∃ p, findNextOccurrence mm regionEnd candidate scanPos = some p ∧
      scanPos < p ∧ p < min (regionEnd - AES_KEY_SIZE) (scanPos + LOOKAHEAD) ∧
      sliceBS mm p (p + AES_KEY_SIZE) = candidate := by
  have hn : j ∈ List.range' (scanPos + 1)
      (min (regionEnd - AES_KEY_SIZE) (scanPos + LOOKAHEAD) - (scanPos + 1)) := by
    rw [List.mem_range']
    exact ⟨j - (scanPos + 1), by omega, by omega⟩
  have hsome : ((List.range' (scanPos + 1)
      (min (regionEnd - AES_KEY_SIZE) (scanPos + LOOKAHEAD) - (scanPos + 1))).find?
        (fun x => sliceBS mm x (x + AES_KEY_SIZE) == candidate)).isSome := by
    rw [List.find?_isSome]
    exact ⟨j, hn, by simpa using h3⟩
  obtain ⟨p, hp⟩ := Option.isSome_iff_exists.mp hsome
  have hpeq : sliceBS mm p (p + AES_KEY_SIZE) = candidate := by
    simpa using List.find?_some hp
  have hpmem := List.mem_of_find?_eq_some hp
  rw [List.mem_range'] at hpmem
  obtain ⟨idx, hidx, hpval⟩ := hpmem
  exact ⟨p, hp, by omega, by omega, hpeq⟩

/-- Witness for the amended C4: on `mmC4w` an occurrence at offset 16 lies strictly
inside the lookahead range, and the search does return an occurrence. -/
theorem C4_lookahead_window_witness :
    (0 < 16 ∧ 16 < min (64 - AES_KEY_SIZE) (0 + LOOKAHEAD) ∧
        sliceBS mmC4w 16 (16 + AES_KEY_SIZE) = sliceBS mmC4w 0 (0 + AES_KEY_SIZE)) ∧
      ∃ p, findNextOccurrence mmC4w 64 (sliceBS mmC4w 0 (0 + AES_KEY_SIZE)) 0 = some p ∧
        0 < p ∧ p < min (64 - AES_KEY_SIZE) (0 + LOOKAHEAD) ∧
        sliceBS mmC4w p (p + AES_KEY_SIZE) = sliceBS mmC4w 0 (0 + AES_KEY_SIZE) := by
  refine ⟨⟨by decide, by decide, by decide⟩, ?_⟩
  exact C4_lookahead_window mmC4w 64 (sliceBS mmC4w 0 (0 + AES_KEY_SIZE)) 0 16
    (by decide) (by decide) (by decide)

/-! ### Claim theorems: orchestrator, structured discovery, entropy -/

/-- C7: `main`'s strategy loop equals the fallback chain of `orchestrateSpec` on
every input — each strategy is attempted at most once, in the fixed order
structured / heuristic-forward / heuristic-backward; the scanner runs only on a
non-empty region list; the first strategy whose regions yield a candidate is
reported; and the empty result is reported only when all three strategies are
exhausted without a candidate. -/
theorem C7_fallback_chain (mm : ByteSource) (segs64 : Option (List MemorySegment)) :
    main_scan mm segs64 = orchestrateSpec mm segs64 := by
  rw [main_scan, orchestrateSpec]
  simp only [mainLoop, stepRegions]
  split_ifs <;> simp_all

/-- C8: structured discovery is exactly the size filter
`MIN_REGION_SIZE < size ≤ MAX_REGION_SIZE` over the declared segments, converted to
regions in input order; in particular a single declared segment of 5,000,000 bytes
(exceeding `MAX_REGION_SIZE`) yields the empty region list. -/
theorem C8_structured_filter :
    (∀ segs : List MemorySegment,
        find_regions_from_minidump (some segs) = structuredSpec segs) ∧
      find_regions_from_minidump (some [⟨0, 5000000⟩]) = [] := by
  refine ⟨structured_eq_spec, ?_⟩
  decide

/-- C9: the Shannon-entropy function returns exactly `0.0` on the empty byte
window and on the all-zero 32-byte window. -/
theorem C9_entropy_zero :
    shannon_entropy [] = 0 ∧ shannon_entropy (List.replicate 32 0) = 0 := by
  constructor
  · rw [shannon_entropy, if_pos rfl]
  · rw [shannon_entropy, if_neg (by simp)]
    rw [neg_eq_zero]
    apply Finset.sum_eq_zero
    intro v hv
    by_cases hv0 : v = 0
    · subst hv0
      norm_num [List.count_replicate_self, List.length_replicate, Real.logb_one]
    · rw [if_pos]
      rw [List.count_replicate]
      simp [Ne.symm hv0]

/-! ### The integer entropy gate agrees with the real-valued threshold test -/

set_option maxRecDepth 8000 in
theorem count_sum_eq_length (data : List Nat) (hb : ∀ b ∈ data, b < 256) :
    ∑ v ∈ Finset.range 256, data.count v = data.length := by
  induction data with
  | nil => simp
  | cons b t ih =>
    have hbt : ∀ x ∈ t, x < 256 := fun x hx => hb x (List.mem_cons_of_mem b hx)
    have hbb : b < 256 := hb b (List.mem_cons_self b t)
    simp only [List.count_cons, List.length_cons]
    have hone : (∑ v ∈ Finset.range 256, if b == v then 1 else 0) = 1 := by
      simp only [beq_iff_eq]
      rw [Finset.sum_ite_eq]
      exact if_pos (Finset.mem_range.mpr hbb)
    rw [Finset.sum_add_distrib, ih hbt, hone]

theorem entropyNumerator_pos (data : List Nat) : 0 < entropyNumerator data := by
  rw [entropyNumerator]
  apply Finset.prod_pos
  intro v _
  rcases Nat.eq_zero_or_pos (data.count v) with h | h
  · rw [h]
    norm_num
  · exact pow_pos h _

theorem shannon_entropy_eq (data : List Nat) (hne : data ≠ [])
    (hb : ∀ b ∈ data, b < 256) :
    shannon_entropy data =
      Real.logb 2 data.length -
        (∑ v ∈ Finset.range 256,
            (data.count v : ℝ) * Real.logb 2 (data.count v)) / data.length := by
  have hlen : 0 < data.length := List.length_pos.mpr hne
  have hn0 : (data.length : ℝ) ≠ 0 := Nat.cast_ne_zero.mpr (by omega)
  rw [shannon_entropy, if_neg hne]
  have hterm : ∀ v ∈ Finset.range 256,
      (if data.count v = 0 then (0:ℝ)
       else (data.count v / data.length : ℝ) * Real.logb 2 (data.count v / data.length)) =
      (data.count v : ℝ) / data.length * Real.logb 2 (data.count v) -
        (data.count v : ℝ) / data.length * Real.logb 2 data.length := by
    intro v _
    by_cases hc : data.count v = 0
    · rw [if_pos hc, hc]
      simp
    · rw [if_neg hc, Real.logb_div (Nat.cast_ne_zero.mpr hc) hn0]
      ring
  rw [Finset.sum_congr rfl hterm, Finset.sum_sub_distrib]
  have hA : ∑ v ∈ Finset.range 256,
      (data.count v : ℝ) / data.length * Real.logb 2 (data.count v) =
      (∑ v ∈ Finset.range 256, (data.count v : ℝ) * Real.logb 2 (data.count v)) /
        data.length := by
    rw [Finset.sum_div]
    exact Finset.sum_congr rfl fun v _ => by ring
  have hcast : ∑ v ∈ Finset.range 256, (data.count v : ℝ) = (data.length : ℝ) := by
    rw [← Nat.cast_sum, count_sum_eq_length data hb]
  have hB : ∑ v ∈ Finset.range 256,
      (data.count v : ℝ) / data.length * Real.logb 2 data.length =
      Real.logb 2 data.length := by
    rw [← Finset.sum_mul, ← Finset.sum_div, hcast, div_self hn0, one_mul]
  rw [hA, hB]
  ring

theorem logb_entropyNumerator (data : List Nat) :
    Real.logb 2 (entropyNumerator data : ℝ) =
      10 * ∑ v ∈ Finset.range 256,
        (data.count v : ℝ) * Real.logb 2 (data.count v) := by
  have hfac : ∀ v ∈ Finset.range 256, ((data.count v : ℝ) ^ (10 * data.count v)) ≠ 0 := by
    intro v _
    rcases Nat.eq_zero_or_pos (data.count v) with h | h
    · rw [h]
      norm_num
    · exact pow_ne_zero _ (Nat.cast_ne_zero.mpr (by omega))
  rw [entropyNumerator]
  push_cast
  rw [Real.logb_prod _ _ hfac]
  have hterm : ∀ v ∈ Finset.range 256,
      Real.logb 2 ((data.count v : ℝ) ^ (10 * data.count v)) =
        10 * ((data.count v : ℝ) * Real.logb 2 (data.count v)) := by
    intro v _
    rw [Real.logb_pow]
    push_cast
    ring
  rw [Finset.sum_congr rfl hterm, ← Finset.mul_sum]

/-- Faithfulness of `entropyGate`: for a nonempty byte string, the integer test
`2^(47·n) · ∏ f^(10·f) ≤ n^(10·n)` holds exactly when the real-valued Shannon
entropy is at least `AES_ENTROPY_THRESHOLD = 4.7` bits — the source's
`shannon_entropy(candidate) >= AES_ENTROPY_THRESHOLD`. -/
theorem entropyGate_correct (data : List Nat) (hne : data ≠ [])
    (hb : ∀ b ∈ data, b < 256) :
    entropyGate data = true ↔ AES_ENTROPY_THRESHOLD ≤ shannon_entropy data := by
  have hlen : 0 < data.length := List.length_pos.mpr hne
  have hn' : (0:ℝ) < data.length := by exact_mod_cast hlen
  have hP := entropyNumerator_pos data
  have hPr : (0:ℝ) < (entropyNumerator data : ℝ) := by exact_mod_cast hP
  rw [entropyGate, decide_eq_true_eq]
  have hcast : ((2:ℕ) ^ (47 * data.length) * entropyNumerator data ≤
        data.length ^ (10 * data.length)) ↔
      ((2:ℝ) ^ (47 * data.length) * (entropyNumerator data : ℝ) ≤
        (data.length : ℝ) ^ (10 * data.length)) := by
    exact_mod_cast Iff.rfl
  have hL : (0:ℝ) < (2:ℝ) ^ (47 * data.length) * (entropyNumerator data : ℝ) :=
    mul_pos (pow_pos two_pos _) hPr
  have hR : (0:ℝ) < (data.length : ℝ) ^ (10 * data.length) := pow_pos hn' _
  have hlog_iff : ((2:ℝ) ^ (47 * data.length) * (entropyNumerator data : ℝ) ≤
        (data.length : ℝ) ^ (10 * data.length)) ↔
      Real.logb 2 ((2:ℝ) ^ (47 * data.length) * (entropyNumerator data : ℝ)) ≤
        Real.logb 2 ((data.length : ℝ) ^ (10 * data.length)) :=
    (Real.logb_le_logb one_lt_two hL hR).symm
  have hlhs : Real.logb 2 ((2:ℝ) ^ (47 * data.length) * (entropyNumerator data : ℝ)) =
      47 * (data.length : ℝ) +
        10 * ∑ v ∈ Finset.range 256,
          (data.count v : ℝ) * Real.logb 2 (data.count v) := by
    rw [Real.logb_mul (ne_of_gt (pow_pos two_pos _)) (ne_of_gt hPr), Real.logb_pow,
      Real.logb_self_eq_one one_lt_two, logb_entropyNumerator]
    push_cast
    ring
  have hrhs : Real.logb 2 ((data.length : ℝ) ^ (10 * data.length)) =
      10 * (data.length : ℝ) * Real.logb 2 data.length := by
    rw [Real.logb_pow]
    push_cast
    ring
  rw [hcast, hlog_iff, hlhs, hrhs, shannon_entropy_eq data hne hb, AES_ENTROPY_THRESHOLD]
  have hSn : (∑ v ∈ Finset.range 256,
      (data.count v : ℝ) * Real.logb 2 (data.count v)) / data.length * data.length =
      ∑ v ∈ Finset.range 256, (data.count v : ℝ) * Real.logb 2 (data.count v) :=
    div_mul_cancel₀ _ (ne_of_gt hn')
  constructor
  · intro h
    refine le_of_mul_le_mul_right ?_ hn'
    rw [sub_mul, hSn]
    linarith
  · intro h
    have h2 := mul_le_mul_of_nonneg_right h (le_of_lt hn')
    rw [sub_mul, hSn] at h2
    linarith
